import Mathlib

/-!
Verification of the organize-and-undo engine of `advanced_organizer.py`
(repository Sneha-sharma-80/organizer).

The Python source is shallowly embedded: the filesystem is a value of type
`FS` (a list of file entries plus a list of directories, together with an
oracle telling which `shutil.move` calls raise), paths mirror `pathlib.Path`
objects decomposed into a parent directory and a `stem`/`suffix` pair, and
every core helper of the source (`find_category_by_ext`, `make_unique_path`,
`list_files`, `organize_by_type`, `organize_by_date`, `get_file_hash`,
`find_duplicates`, `gather_stats_for_dashboard`, `save_move_history`,
`load_move_history`, `undo_last`) is translated into an executable Lean
definition of the same name.  Wall-clock timestamps (`datetime.utcnow()`)
are not modelled: no verified claim mentions them.
-/

/-! ### Decimal rendering of the disambiguation counter

`make_unique_path` builds candidate names with the f-string
`f"{stem}_{counter}{suffix}"`; Python renders the `int` counter in decimal.
`decRepr` is that decimal rendering, written with structural recursion on a
fuel argument so that it reduces in the kernel, and proved injective via the
parse round-trip `decParse`.  (Lean's own `Nat.repr` produces the same
strings but ships no injectivity lemma.)
-/

/-- The decimal digit character for `d % 10` (`'0'`–`'9'`). -/
def decDigitChar (d : Nat) : Char := Char.ofNat (48 + d % 10)

/-- Inverse of `decDigitChar` on actual digit characters. -/
def charToDigit (c : Char) : Nat := c.toNat - 48

/-- Little-endian decimal digits of `n`; `fuel ≥ n` makes it exact. -/
def decDigitsAux : Nat → Nat → List Nat
  | _, 0 => []
  | 0, _ + 1 => []
  | fuel + 1, n + 1 => (n + 1) % 10 :: decDigitsAux fuel ((n + 1) / 10)

/-- Value of a little-endian decimal digit list. -/
def decVal : List Nat → Nat
  | [] => 0
  | d :: ds => d + 10 * decVal ds

/-- Decimal rendering of a natural number, exactly as Python's `str(int)`. -/
def decRepr (n : Nat) : String :=
  if n = 0 then "0" else ((decDigitsAux n n).map decDigitChar).reverse.asString

/-- Parse back a decimal string (left inverse of `decRepr`). -/
def decParse (s : String) : Nat := decVal (s.data.reverse.map charToDigit)

theorem decVal_decDigitsAux : ∀ fuel n, n ≤ fuel → decVal (decDigitsAux fuel n) = n := by
  intro fuel
  induction fuel with
  | zero =>
    intro n hn
    interval_cases n
    simp [decDigitsAux, decVal]
  | succ f ih =>
    intro n hn
    cases n with
    | zero => simp [decDigitsAux, decVal]
    | succ m =>
      have hdiv : (m + 1) / 10 ≤ f := by
        have h1 : (m + 1) / 10 < m + 1 := Nat.div_lt_self (Nat.succ_pos m) (by omega)
        omega
      simp only [decDigitsAux, decVal, ih _ hdiv]
      omega

theorem decDigitsAux_lt_ten : ∀ fuel n, ∀ d ∈ decDigitsAux fuel n, d < 10 := by
  intro fuel
  induction fuel with
  | zero =>
    intro n d hd
    cases n <;> simp [decDigitsAux] at hd
  | succ f ih =>
    intro n d hd
    cases n with
    | zero => simp [decDigitsAux] at hd
    | succ m =>
      simp only [decDigitsAux, List.mem_cons] at hd
      rcases hd with h | h
      · omega
      · exact ih _ _ h

theorem charToDigit_decDigitChar {d : Nat} (h : d < 10) :
    charToDigit (decDigitChar d) = d := by
  interval_cases d <;> decide

theorem map_charToDigit_decDigitChar (l : List Nat) (h : ∀ d ∈ l, d < 10) :
    (l.map decDigitChar).map charToDigit = l := by
  induction l with
  | nil => rfl
  | cons d ds ih =>
    simp only [List.map_cons, List.cons.injEq]
    exact ⟨charToDigit_decDigitChar (h d (List.mem_cons_self d ds)),
      ih fun x hx => h x (List.mem_cons_of_mem d hx)⟩

theorem decParse_decRepr (n : Nat) : decParse (decRepr n) = n := by
  by_cases h : n = 0
  · subst h; decide
  · simp only [decRepr, h, if_false, decParse]
    have hdata : (((decDigitsAux n n).map decDigitChar).reverse.asString).data
        = ((decDigitsAux n n).map decDigitChar).reverse := rfl
    rw [hdata, List.reverse_reverse,
      map_charToDigit_decDigitChar _ (decDigitsAux_lt_ten n n),
      decVal_decDigitsAux n n (le_refl n)]

theorem decRepr_injective : Function.Injective decRepr := by
  intro a b hab
  have := congrArg decParse hab
  rwa [decParse_decRepr, decParse_decRepr] at this

/-! ### Paths

A `pathlib.Path` is modelled as the list of directory components of its
parent plus a base name, the base name pre-decomposed into `stem` and
`suffix` exactly as `pathlib` does (`name = stem + suffix`). -/

/-- Base name of a filesystem entry, decomposed as `pathlib` does. -/
structure FileName where
  stem : String
  suffix : String
deriving DecidableEq, Repr

/-- `Path.name` in `pathlib`: `stem + suffix`. -/
def FileName.name (b : FileName) : String := b.stem ++ b.suffix

/-- A directory, as its list of components. -/
abbrev Dir := List String

/-- A file path: parent directory plus base name. -/
structure FilePath where
  parent : Dir
  base : FileName
deriving DecidableEq, Repr

/-! ### Filesystem state -/

/-- One regular file together with the metadata the source inspects.
`readable` is whether `open(...).read` succeeds (used by `get_file_hash`),
`statOk` whether `f.stat()` succeeds, `size` is `st_size`, and
`myear`/`mmonth` the year and month of `st_mtime`. -/
structure FileEntry where
  path : FilePath
  content : List Nat
  readable : Bool
  statOk : Bool
  size : Nat
  myear : Nat
  mmonth : Nat
deriving DecidableEq, Repr

/-- Filesystem state: the regular files, the directories, and an oracle
telling which `shutil.move src dst` calls raise an `OSError`. -/
structure FS where
  files : List FileEntry
  dirs : List Dir
  moveFails : FilePath → FilePath → Bool

/-- `Path.exists()`: true when a file or a directory sits at the path. -/
def path_exists (fs : FS) (p : FilePath) : Bool :=
  decide (∃ e ∈ fs.files, e.path = p) ||
    decide ((p.parent ++ [p.base.name]) ∈ fs.dirs)

/-- The candidate `parent / f"{stem}_{counter}{suffix}"` that the
`make_unique_path` loop tests. -/
def candidate (dest : FilePath) (counter : Nat) : FilePath :=
  ⟨dest.parent, ⟨dest.base.stem ++ "_" ++ decRepr counter, dest.base.suffix⟩⟩

theorem string_append_left_cancel {c a b : String} (h : c ++ a = c ++ b) : a = b := by
  have hd := congrArg String.data h
  simp only [String.data_append] at hd
  exact String.ext (List.append_cancel_left hd)

theorem string_append_right_cancel {c a b : String} (h : a ++ c = b ++ c) : a = b := by
  have hd := congrArg String.data h
  simp only [String.data_append] at hd
  exact String.ext (List.append_cancel_right hd)

theorem candidate_name_injective (dest : FilePath) :
    Function.Injective fun c => (candidate dest c).base.name := by
  intro a b hab
  simp only [candidate, FileName.name] at hab
  have h1 : dest.base.stem ++ "_" ++ decRepr a = dest.base.stem ++ "_" ++ decRepr b :=
    string_append_right_cancel hab
  have h2 : decRepr a = decRepr b := by
    rw [String.append_assoc, String.append_assoc] at h1
    exact string_append_left_cancel (string_append_left_cancel h1)
  exact decRepr_injective h2

/-- The names of all entries (files, and last components of directories) of
the filesystem: every existing path's base name occurs here. -/
def entryNames (fs : FS) : List String :=
  fs.files.map (fun e => e.path.base.name) ++ fs.dirs.filterMap List.getLast?

theorem name_mem_entryNames {fs : FS} {p : FilePath}
    (h : path_exists fs p = true) : p.base.name ∈ entryNames fs := by
  simp only [path_exists, Bool.or_eq_true, decide_eq_true_eq] at h
  rcases h with ⟨e, he, hep⟩ | hd
  · exact List.mem_append_left _ (List.mem_map.mpr ⟨e, he, by rw [hep]⟩)
  · refine List.mem_append_right _ (List.mem_filterMap.mpr ⟨p.parent ++ [p.base.name], hd, ?_⟩)
    exact List.getLast?_concat _

/-- The `while True` loop of `make_unique_path` terminates: some counter
yields a candidate at which nothing exists.  (Candidates for distinct
counters have distinct names, while only finitely many names exist.) -/
theorem exists_free_candidate (fs : FS) (dest : FilePath) :
    ∃ c, path_exists fs (candidate dest (c + 1)) = false := by
  by_contra hall
  push_neg at hall
  have hex : ∀ c, path_exists fs (candidate dest (c + 1)) = true := by
    intro c
    have := hall c
    revert this
    cases path_exists fs (candidate dest (c + 1)) <;> simp
  have hmem : ∀ c : Nat, (candidate dest (c + 1)).base.name ∈ (entryNames fs).toFinset :=
    fun c => List.mem_toFinset.mpr (name_mem_entryNames (hex c))
  have hinj : Set.InjOn (fun c : Nat => (candidate dest (c + 1)).base.name)
      (Finset.range ((entryNames fs).length + 1)) := by
    intro a _ b _ hab
    have hab2 : (candidate dest (a + 1)).base.name = (candidate dest (b + 1)).base.name := hab
    have := candidate_name_injective dest hab2
    omega
  have hcard := Finset.card_le_card_of_injOn _ (fun c _ => hmem c) hinj
  rw [Finset.card_range] at hcard
  have := (entryNames fs).toFinset_card_le
  omega

/-- `make_unique_path` (source lines 88–100): if nothing exists at `dest`,
return it unchanged; otherwise return `parent / f"{stem}_{c}{suffix}"` for
the first counter `c ≥ 1` at which nothing exists. -/
def make_unique_path (fs : FS) (dest : FilePath) : FilePath :=
  if path_exists fs dest then
    candidate dest (Nat.find (p := fun c => path_exists fs (candidate dest (c + 1)) = false)
      (exists_free_candidate fs dest) + 1)
  else dest

theorem make_unique_path_of_not_exists {fs : FS} {dest : FilePath}
    (h : path_exists fs dest = false) : make_unique_path fs dest = dest := by
  simp [make_unique_path, h]

/-- The path `make_unique_path` returns is always free. -/
theorem make_unique_path_not_exists (fs : FS) (dest : FilePath) :
    path_exists fs (make_unique_path fs dest) = false := by
  unfold make_unique_path
  by_cases h : path_exists fs dest
  · simp only [h, if_true]
    exact Nat.find_spec (exists_free_candidate fs dest)
  · simp only [h, if_false]
    simpa using h

/-- With `name.ext` and `name_1.ext`, …, `name_N.ext` all present and
`name_(N+1).ext` absent, `make_unique_path` returns `name_(N+1).ext`. -/
theorem make_unique_path_counts {fs : FS} {dest : FilePath} {N : Nat}
    (h0 : path_exists fs dest = true)
    (hk : ∀ k < N, path_exists fs (candidate dest (k + 1)) = true)
    (hN : path_exists fs (candidate dest (N + 1)) = false) :
    make_unique_path fs dest = candidate dest (N + 1) := by
  unfold make_unique_path
  simp only [h0, if_true]
  congr 1
  have hfind : Nat.find (p := fun c => path_exists fs (candidate dest (c + 1)) = false)
      (exists_free_candidate fs dest) = N := by
    rw [Nat.find_eq_iff]
    refine ⟨hN, ?_⟩
    intro m hm
    rw [hk m hm]
    simp
  omega

/-! ### Classifier (source lines 35–43 and 81–86) -/

def DEFAULT_OTHER : String := "Others"

/-- The built-in extension table (`DEFAULT_EXT_MAP`), an ordered mapping as
Python dicts are. -/
def DEFAULT_EXT_MAP : List (String × List String) := [
  ("Images", [".jpg", ".jpeg", ".png", ".gif", ".bmp", ".tiff", ".webp", ".heic"]),
  ("Videos", [".mp4", ".mkv", ".mov", ".avi", ".wmv", ".flv", ".webm"]),
  ("Documents", [".pdf", ".doc", ".docx", ".ppt", ".pptx", ".xls", ".xlsx", ".odt", ".txt", ".md"]),
  ("Archives", [".zip", ".rar", ".7z", ".tar", ".gz", ".bz2"]),
  ("Code", [".py", ".js", ".ts", ".java", ".c", ".cpp", ".cs", ".html", ".css", ".go", ".rs"]),
  ("Music", [".mp3", ".wav", ".flac", ".aac", ".m4a", ".ogg"])]

/-- Python's `str.lower()` on an extension, applied per character.  (Lean's
own `String.toLower` computes the same string but does not reduce in the
kernel.) -/
def strToLower (s : String) : String := (s.data.map Char.toLower).asString

/-- The `for cat, exts in ext_map.items()` loop body of
`find_category_by_ext`: first category whose list contains the extension. -/
def find_category_core : List (String × List String) → String → String
  | [], _ => DEFAULT_OTHER
  | (cat, exts) :: rest, e => if e ∈ exts then cat else find_category_core rest e

/-- `find_category_by_ext` (source lines 81–86): lower-case the extension,
then scan the map in iteration order, falling back to `DEFAULT_OTHER`. -/
def find_category_by_ext (m : List (String × List String)) (ext : String) : String :=
  find_category_core m (strToLower ext)

/-! ### File enumeration and filesystem mutation primitives -/

/-- `list_files` (source lines 120–124): regular files under `target`,
recursively (`rglob`) or immediate children only (`iterdir`).  Enumeration
order is the order of `FS.files`. -/
def list_files (fs : FS) (target : Dir) (recursive : Bool) : List FileEntry :=
  if recursive then fs.files.filter (fun e => decide (target <+: e.path.parent))
  else fs.files.filter (fun e => decide (e.path.parent = target))

/-- Whether `dest_dir.mkdir(parents=True, exist_ok=True)` raises: it does
exactly when a regular file occupies the directory path or one of its
ancestors (`FileExistsError` on the final component, `NotADirectoryError`
below it) — `exist_ok=True` only tolerates an existing *directory*.  Only
the file list is consulted, so this is a function of `FS.files`. -/
def dir_blocked (files : List FileEntry) (d : Dir) : Bool :=
  decide (∃ e ∈ files, ∃ pre ∈ d.inits, e.path.parent ++ [e.path.base.name] = pre)

/-- The successful case of `dest_dir.mkdir(parents=True, exist_ok=True)`:
add the directory and its ancestors, keeping whatever already exists.  The
raising case is `dir_blocked`, checked by the callers before this update. -/
def mkdir_parents (fs : FS) (d : Dir) : FS :=
  { fs with dirs := fs.dirs ++ d.inits.filter (fun pre => !pre.isEmpty && !decide (pre ∈ fs.dirs)) }

/-- `shutil.move(str(src), str(dst))` when it succeeds: the entry at `src`
now sits at `dst`. -/
def FS.moveFile (fs : FS) (src dst : FilePath) : FS :=
  { fs with files := fs.files.map (fun e => if e.path = src then { e with path := dst } else e) }

/-- One move record, as built on source lines 135 and 150.  The
`datetime.utcnow().isoformat()` timestamp is not modelled. -/
structure MoveRecord where
  src : FilePath
  dst : FilePath
  dry : Bool
deriving DecidableEq, Repr

/-! ### Organize Engine (source lines 126–154)

Neither loop guards `shutil.move`, `dest_dir.mkdir` (nor, in the by-date
loop, `f.stat()`) with a `try`: an `OSError` propagates out of the
function, so the embedding returns `Except`, the error value carrying the
filesystem state at the uncaught exception (the partially built record
list is lost).  The GUI worker catches the exception outside these
functions and only logs it. -/

/-- The body of the `organize_by_type` loop for one file: classify, make the
destination directory (`mkdir` raises when a regular file blocks the
directory path), disambiguate, and (when not a dry run) move.  `none` as
second component means the step raised. -/
def organize_type_step (m : List (String × List String)) (target : Dir) (dry : Bool)
    (e : FileEntry) (fs : FS) : FS × Option MoveRecord :=
  let ext := strToLower e.path.base.suffix
  let cat := find_category_by_ext m ext
  let destDir := target ++ [cat]
  if dir_blocked fs.files destDir then (fs, none)
  else
    let fs1 := mkdir_parents fs destDir
    let dest := make_unique_path fs1 ⟨destDir, e.path.base⟩
    if dry then (fs1, some ⟨e.path, dest, dry⟩)
    else if fs1.moveFails e.path dest then (fs1, none)
    else (fs1.moveFile e.path dest, some ⟨e.path, dest, dry⟩)

/-- The `for f in files` loop of `organize_by_type` over the snapshot. -/
def organize_type_go (m : List (String × List String)) (target : Dir) (dry : Bool) :
    List FileEntry → FS → Except FS (List MoveRecord × FS)
  | [], fs => .ok ([], fs)
  | e :: es, fs =>
    match organize_type_step m target dry e fs with
    | (fs1, none) => .error fs1
    | (fs1, some r) =>
      match organize_type_go m target dry es fs1 with
      | .error fs2 => .error fs2
      | .ok (rs, fs2) => .ok (r :: rs, fs2)

/-- `organize_by_type` (source lines 126–139): snapshot the files, then run
the loop. -/
def organize_by_type (fs : FS) (m : List (String × List String)) (target : Dir)
    (dry recursive : Bool) : Except FS (List MoveRecord × FS) :=
  organize_type_go m target dry (list_files fs target recursive) fs

/-- `f"{mtime.year}-{mtime.month:02d}"`. -/
def date_folder (e : FileEntry) : String :=
  decRepr e.myear ++ "-" ++ (if e.mmonth < 10 then "0" ++ decRepr e.mmonth else decRepr e.mmonth)

/-- The body of the `organize_by_date` loop for one file.  `f.stat()` is
called unguarded, so a failing `stat` also raises (first branch), as does
`mkdir` when a regular file blocks the directory path (second branch). -/
def organize_date_step (target : Dir) (dry : Bool) (e : FileEntry) (fs : FS) :
    FS × Option MoveRecord :=
  if e.statOk = false then (fs, none)
  else
    let destDir := target ++ [date_folder e]
    if dir_blocked fs.files destDir then (fs, none)
    else
      let fs1 := mkdir_parents fs destDir
      let dest := make_unique_path fs1 ⟨destDir, e.path.base⟩
      if dry then (fs1, some ⟨e.path, dest, dry⟩)
      else if fs1.moveFails e.path dest then (fs1, none)
      else (fs1.moveFile e.path dest, some ⟨e.path, dest, dry⟩)

/-- The `for f in files` loop of `organize_by_date` over the snapshot. -/
def organize_date_go (target : Dir) (dry : Bool) :
    List FileEntry → FS → Except FS (List MoveRecord × FS)
  | [], fs => .ok ([], fs)
  | e :: es, fs =>
    match organize_date_step target dry e fs with
    | (fs1, none) => .error fs1
    | (fs1, some r) =>
      match organize_date_go target dry es fs1 with
      | .error fs2 => .error fs2
      | .ok (rs, fs2) => .ok (r :: rs, fs2)

/-- `organize_by_date` (source lines 141–154). -/
def organize_by_date (fs : FS) (target : Dir) (dry recursive : Bool) :
    Except FS (List MoveRecord × FS) :=
  organize_date_go target dry (list_files fs target recursive) fs

/-- Whether an organize call completed without an uncaught exception. -/
def isOkE {ε α : Type} : Except ε α → Bool
  | .ok _ => true
  | .error _ => false

/-- The files of the filesystem an organize call ends in (also on error). -/
def resultFiles : Except FS (List MoveRecord × FS) → List FileEntry
  | .error fs => fs.files
  | .ok (_, fs) => fs.files

/-- The directories of the filesystem an organize call ends in. -/
def resultDirs : Except FS (List MoveRecord × FS) → List Dir
  | .error fs => fs.dirs
  | .ok (_, fs) => fs.dirs

/-- The record list an organize call hands back, when it returns at all. -/
def resultRecords : Except FS (List MoveRecord × FS) → Option (List MoveRecord)
  | .error _ => none
  | .ok (rs, _) => some rs

/-! ### Hasher and Duplicate Finder (source lines 156–174) -/

/-- `get_file_hash` (source lines 156–164): `digest` stands for the
streaming MD5 hexdigest as a function of the byte content; any exception
while opening or reading yields `None`. -/
def get_file_hash (digest : List Nat → String) (e : FileEntry) : Option String :=
  if e.readable then some (digest e.content) else none

/-- `hash_map.setdefault(h, []).append(str(f))` on an insertion-ordered
dict, modelled as an association list. -/
def addToGroup : List (String × List FilePath) → String → FilePath →
    List (String × List FilePath)
  | [], h, p => [(h, [p])]
  | (h1, ps) :: rest, h, p =>
    if h1 = h then (h1, ps ++ [p]) :: rest else (h1, ps) :: addToGroup rest h p

/-- The body of the `for f in files` loop of `find_duplicates`:
`if not h: continue` skips both a `None` hash and an empty-string hash. -/
def find_dup_step (digest : List Nat → String) (acc : List (String × List FilePath))
    (e : FileEntry) : List (String × List FilePath) :=
  match get_file_hash digest e with
  | none => acc
  | some h => if h = "" then acc else addToGroup acc h e.path

/-- `find_duplicates` (source lines 166–174): hash every enumerated file,
group by digest, and keep the groups with at least two members. -/
def find_duplicates (digest : List Nat → String) (fs : FS) (target : Dir)
    (recursive : Bool) : List (String × List FilePath) :=
  let files := list_files fs target recursive
  let hm := files.foldl (find_dup_step digest) []
  hm.filter (fun g => decide (g.2.length > 1))

/-! ### Stats Aggregator (source lines 176–190) -/

/-- The returned dict: note the size is reported in mebibytes rounded to
two decimals (`total_size_mb`), not in bytes. -/
structure DashboardStats where
  total_files : Nat
  total_size_mb : ℚ
  counts : List (String × Nat)
deriving DecidableEq, Repr

/-- Python's `round(x, 2)` on the reported size, as exact rational
rounding.  (`float` representation error is below the granularity any
verified claim observes.) -/
def round2 (q : ℚ) : ℚ := (round (q * 100) : ℚ) / 100

/-- `counts = {cat: 0 for cat in ext_map.keys()}; counts[DEFAULT_OTHER] = 0`:
dict assignment appends a fresh key at the end and leaves a present key in
place. -/
def init_counts (m : List (String × List String)) : List (String × Nat) :=
  let base := m.map (fun p => (p.1, 0))
  if DEFAULT_OTHER ∈ m.map Prod.fst then base else base ++ [(DEFAULT_OTHER, 0)]

/-- `counts[cat] += 1`.  The key is always present (`find_category_by_ext`
returns a key of the map or `DEFAULT_OTHER`), so the `KeyError` path of the
Python subscript cannot fire. -/
def bump_count (counts : List (String × Nat)) (cat : String) : List (String × Nat) :=
  counts.map (fun p => if p.1 = cat then (p.1, p.2 + 1) else p)

/-- The body of the `for f in files` loop of `gather_stats_for_dashboard`:
classify the file, count it, and add its size when `f.stat()` succeeds (the
`try`/`except` around `st_size` skips failures). -/
def stats_step (m : List (String × List String)) (a : List (String × Nat) × Nat × Nat)
    (e : FileEntry) : List (String × Nat) × Nat × Nat :=
  let cat := find_category_by_ext m e.path.base.suffix
  (bump_count a.1 cat, a.2.1 + 1, a.2.2 + (if e.statOk then e.size else 0))

/-- `gather_stats_for_dashboard` (source lines 176–190). -/
def gather_stats_for_dashboard (fs : FS) (m : List (String × List String))
    (target : Dir) (recursive : Bool) : DashboardStats :=
  let files := list_files fs target recursive
  let acc := files.foldl (stats_step m) (init_counts m, 0, 0)
  { total_files := acc.2.1,
    total_size_mb := round2 ((acc.2.2 : ℚ) / (1024 * 1024)),
    counts := acc.1 }

/-! ### History Store (source lines 102–118) and Undo (source lines 385–395) -/

/-- One organize run as persisted (source line 355).  The `run_time`
timestamp is not modelled. -/
structure RunRecord where
  target : Dir
  moves : List MoveRecord
deriving DecidableEq, Repr

/-- What `json.load` can hand back from the history artifact: a JSON array
decoding to run records (the only shape the program itself writes), or any
*truthy* non-list JSON value — a non-zero number, non-empty string or
non-empty object — abstracted with a tag.  On the latter, `undo_last`
passes the `if not history` check and `history.pop()` raises.  (Falsy
non-list values such as `0`, and JSON arrays of ill-shaped elements, are
not modelled; the program never writes either.) -/
inductive PyVal where
  | runs (h : List RunRecord)
  | other (tag : String)
deriving DecidableEq, Repr

/-- The state of the `move_history.json` artifact. -/
inductive Artifact where
  | missing
  | unreadable
  | parsed (v : PyVal)
deriving DecidableEq, Repr

/-- `load_move_history` (source lines 110–118): a missing file or a raising
`open`/`json.load` yields `[]`; a successful `json.load` is returned as is,
whatever shape it has. -/
def load_move_history : Artifact → PyVal
  | .missing => .runs []
  | .unreadable => .runs []
  | .parsed v => v

/-- `save_move_history` (source lines 102–108) rewrites the whole artifact.
A raising write is logged and swallowed by the source; a reliable disk is
assumed here. -/
def save_move_history (h : List RunRecord) : Artifact := .parsed (.runs h)

/-- Process-wide state: the filesystem plus the history artifact. -/
structure World where
  fs : FS
  hist : Artifact

/-- Outcome of `undo_last`: the "No history" info box, the
"Restored {len(moves)} files" info box, or an uncaught exception. -/
inductive UndoResult where
  | noHistory (w : World)
  | restored (w : World) (reported : Nat)
  | crashed (w : World)

/-- The `for rec in reversed(moves)` loop of `undo_last` (the argument is
already reversed): skip dry records; when the destination still exists,
move it to `make_unique_path(src)`.  An unguarded `shutil.move` failure
raises. -/
def undo_go : List MoveRecord → FS → Except FS FS
  | [], fs => .ok fs
  | r :: rest, fs =>
    if r.dry then undo_go rest fs
    else if path_exists fs r.dst then
      let tgt := make_unique_path fs r.src
      if fs.moveFails r.dst tgt then .error fs
      else undo_go rest (fs.moveFile r.dst tgt)
    else undo_go rest fs

/-- `undo_last` (source lines 385–395): load the history, pop the last run,
replay its records in reverse, save the shortened history, and report
`len(moves)`. -/
def undo_last (w : World) : UndoResult :=
  match load_move_history w.hist with
  | .other _ => .crashed w
  | .runs [] => .noHistory w
  | .runs (h0 :: hrest) =>
    let last := (h0 :: hrest).getLast (List.cons_ne_nil h0 hrest)
    let kept := (h0 :: hrest).dropLast
    match undo_go last.moves.reverse w.fs with
    | .error fs1 => .crashed ⟨fs1, w.hist⟩
    | .ok fs1 => .restored ⟨fs1, save_move_history kept⟩ last.moves.length

/-- The count the "Restored … files" info box shows, when it shows. -/
def undo_reported : UndoResult → Option Nat
  | .restored _ n => some n
  | _ => none

/-- The files of the world an `undo_last` call ends in. -/
def undo_files : UndoResult → List FileEntry
  | .noHistory w => w.fs.files
  | .restored w _ => w.fs.files
  | .crashed w => w.fs.files

/-- The history artifact of the world an `undo_last` call ends in. -/
def undo_hist : UndoResult → Artifact
  | .noHistory w => w.hist
  | .restored w _ => w.hist
  | .crashed w => w.hist

/-! ### Shared concrete fixtures for witnesses and counterexamples -/

/-- A move oracle under which every `shutil.move` succeeds. -/
def noMoveFails : FilePath → FilePath → Bool := fun _ _ => false

/-- A readable, statable file with empty content at a given path. -/
def mkFile (p : FilePath) : FileEntry := ⟨p, [], true, true, 0, 2024, 1⟩

/-! ### Classifier lemmas -/

theorem find_category_core_append (m1 : List (String × List String)) (cat : String)
    (exts : List String) (m2 : List (String × List String)) (e : String)
    (he : e ∈ exts) (hn : ∀ p ∈ m1, e ∉ p.2) :
    find_category_core (m1 ++ (cat, exts) :: m2) e = cat := by
  induction m1 with
  | nil => simp [find_category_core, he]
  | cons p m1 ih =>
    obtain ⟨c0, ex0⟩ := p
    have h0 : e ∉ ex0 := hn (c0, ex0) (List.mem_cons_self _ _)
    simp only [List.cons_append, find_category_core, h0, if_false]
    exact ih fun q hq => hn q (List.mem_cons_of_mem _ hq)

theorem find_category_core_not_mem (m : List (String × List String)) (e : String)
    (hn : ∀ p ∈ m, e ∉ p.2) : find_category_core m e = DEFAULT_OTHER := by
  induction m with
  | nil => rfl
  | cons p m ih =>
    obtain ⟨c0, ex0⟩ := p
    have h0 : e ∉ ex0 := hn (c0, ex0) (List.mem_cons_self _ _)
    simp only [find_category_core, h0, if_false]
    exact ih fun q hq => hn q (List.mem_cons_of_mem _ hq)

/-! ### Claim C5 -/

/-- C5: at a path with no filesystem entry, `make_unique_path` returns the
path unchanged; when `name.ext` and the candidates `name_1.ext`, …,
`name_N.ext` all exist while `name_(N+1).ext` does not, it returns
`name_(N+1).ext`. -/
theorem C5_make_unique_path (fs : FS) (dest : FilePath) (N : Nat) :
    (path_exists fs dest = false → make_unique_path fs dest = dest) ∧
    (path_exists fs dest = true →
      (∀ k < N, path_exists fs (candidate dest (k + 1)) = true) →
      path_exists fs (candidate dest (N + 1)) = false →
      make_unique_path fs dest = candidate dest (N + 1)) :=
  ⟨make_unique_path_of_not_exists,
   fun h0 hk hN => make_unique_path_counts h0 hk hN⟩

/-- The desired destination of the C5 witness. -/
def pC5 : FilePath := ⟨["d"], ⟨"name", ".ext"⟩⟩

/-- Filesystem with `name.ext`, `name_1.ext` and `name_2.ext` present. -/
def fsC5 : FS := ⟨[mkFile pC5, mkFile (candidate pC5 1), mkFile (candidate pC5 2)], [], noMoveFails⟩

theorem C5_make_unique_path_witness :
    make_unique_path fsC5 ⟨["d"], ⟨"other", ".ext"⟩⟩ = ⟨["d"], ⟨"other", ".ext"⟩⟩ ∧
    make_unique_path fsC5 pC5 = candidate pC5 3 :=
  ⟨(C5_make_unique_path fsC5 ⟨["d"], ⟨"other", ".ext"⟩⟩ 0).1 (by decide),
   (C5_make_unique_path fsC5 pC5 2).2 (by decide) (by decide) (by decide)⟩

/-! ### Claim C6 -/

/-- C6: an extension whose lower-cased form occurs in some category list is
mapped to the first such category in iteration order; one occurring in no
category list is mapped to `DEFAULT_OTHER`; and the result only depends on
the lower-cased form of the input. -/
theorem C6_find_category_by_ext (m : List (String × List String)) (ext : String) :
    (∀ m1 cat exts m2, m = m1 ++ (cat, exts) :: m2 → strToLower ext ∈ exts →
      (∀ p ∈ m1, strToLower ext ∉ p.2) → find_category_by_ext m ext = cat) ∧
    ((∀ p ∈ m, strToLower ext ∉ p.2) → find_category_by_ext m ext = DEFAULT_OTHER) ∧
    (∀ ext2, strToLower ext = strToLower ext2 →
      find_category_by_ext m ext = find_category_by_ext m ext2) := by
  refine ⟨?_, ?_, ?_⟩
  · intro m1 cat exts m2 hm he hn
    rw [find_category_by_ext, hm]
    exact find_category_core_append m1 cat exts m2 _ he hn
  · intro hn
    exact find_category_core_not_mem m _ hn
  · intro ext2 h
    rw [find_category_by_ext, find_category_by_ext, h]

/-- A map in which two categories claim the same extension. -/
def mC6 : List (String × List String) := [("A", [".x"]), ("B", [".x"])]

theorem C6_find_category_by_ext_witness :
    find_category_by_ext mC6 ".X" = "A" ∧
    find_category_by_ext mC6 ".zz" = DEFAULT_OTHER ∧
    find_category_by_ext mC6 ".X" = find_category_by_ext mC6 ".x" :=
  ⟨(C6_find_category_by_ext mC6 ".X").1 [] "A" [".x"] [("B", [".x"])] rfl (by decide) (by decide),
   (C6_find_category_by_ext mC6 ".zz").2.1 (by decide),
   (C6_find_category_by_ext mC6 ".X").2.2 ".x" (by decide)⟩

/-! ### Claim C8 -/

/-- C8 counterexample: an artifact holding the valid JSON value `5` — a
malformed history — is handed back as is by `load_move_history`, not turned
into the empty list (and it is no list of run records at all). -/
theorem C8_counterexample :
    load_move_history (Artifact.parsed (PyVal.other "5")) = PyVal.other "5" ∧
    PyVal.other "5" ≠ PyVal.runs [] :=
  ⟨rfl, by decide⟩

/-- C8 amended: `load_move_history` never raises; a missing artifact and a
failing read or JSON parse yield the empty history, while an artifact that
parses to valid JSON is returned as decoded — even when it is not a list of
run records. -/
theorem C8_load_move_history :
    load_move_history Artifact.missing = PyVal.runs [] ∧
    load_move_history Artifact.unreadable = PyVal.runs [] ∧
    ∀ v, load_move_history (Artifact.parsed v) = v :=
  ⟨rfl, rfl, fun _ => rfl⟩

/-! ### Undo lemmas -/

theorem undo_last_parsed_cons (fs : FS) (h0 : RunRecord) (hrest : List RunRecord) :
    undo_last ⟨fs, .parsed (.runs (h0 :: hrest))⟩ =
      match undo_go (((h0 :: hrest).getLast (List.cons_ne_nil h0 hrest)).moves.reverse) fs with
      | .error fs1 => .crashed ⟨fs1, .parsed (.runs (h0 :: hrest))⟩
      | .ok fs1 => .restored ⟨fs1, save_move_history (h0 :: hrest).dropLast⟩
          ((h0 :: hrest).getLast (List.cons_ne_nil h0 hrest)).moves.length := rfl

theorem undo_last_append (fs : FS) (hs : List RunRecord) (run : RunRecord) :
    undo_last ⟨fs, .parsed (.runs (hs ++ [run]))⟩ =
      match undo_go run.moves.reverse fs with
      | .error fs1 => .crashed ⟨fs1, .parsed (.runs (hs ++ [run]))⟩
      | .ok fs1 => .restored ⟨fs1, save_move_history hs⟩ run.moves.length := by
  rcases hcons : hs ++ [run] with _ | ⟨h0, hr⟩
  · exact absurd hcons (by simp)
  · rw [undo_last_parsed_cons]
    have hlast : (h0 :: hr).getLast (List.cons_ne_nil h0 hr) = run := by
      have h2 : (h0 :: hr).getLast? = some run := by
        rw [← hcons]
        exact List.getLast?_concat hs
      rwa [List.getLast?_eq_getLast (h0 :: hr) (List.cons_ne_nil h0 hr),
        Option.some_inj] at h2
    have hdrop : (h0 :: hr).dropLast = hs := by
      rw [← hcons]
      exact List.dropLast_concat
    rw [hlast, hdrop]

theorem undo_go_ok (ms : List MoveRecord) (fs : FS)
    (hmf : ∀ a b, fs.moveFails a b = false) :
    ∃ fs1, undo_go ms fs = .ok fs1 ∧ fs1.moveFails = fs.moveFails := by
  induction ms generalizing fs with
  | nil => exact ⟨fs, rfl, rfl⟩
  | cons r rest ih =>
    by_cases hdry : r.dry = true
    · obtain ⟨fs1, h1, h2⟩ := ih fs hmf
      exact ⟨fs1, by simp [undo_go, hdry, h1], h2⟩
    · by_cases hex : path_exists fs r.dst = true
      · obtain ⟨fs1, h1, h2⟩ := ih (fs.moveFile r.dst (make_unique_path fs r.src)) hmf
        refine ⟨fs1, ?_, h2⟩
        have hm := hmf r.dst (make_unique_path fs r.src)
        simp [undo_go, hdry, hex, hm, h1]
      · obtain ⟨fs1, h1, h2⟩ := ih fs hmf
        refine ⟨fs1, ?_, h2⟩
        simp only [undo_go, hdry, if_false, hex]
        exact h1

theorem moveFile_paths (fs : FS) (src dst : FilePath) :
    (fs.moveFile src dst).files.map (fun e => e.path) =
      (fs.files.map (fun e => e.path)).map (fun p => if p = src then dst else p) := by
  simp only [FS.moveFile, List.map_map]
  apply List.map_congr_left
  intro e _
  by_cases h : e.path = src <;> simp [h]

theorem path_exists_false_no_file {fs : FS} {p : FilePath}
    (h : path_exists fs p = false) : ¬∃ e ∈ fs.files, e.path = p := by
  simp only [path_exists, Bool.or_eq_false_iff, decide_eq_false_iff_not] at h
  exact h.1

theorem nodup_after_move {fs : FS} {src dst : FilePath}
    (hfree : ¬∃ e ∈ fs.files, e.path = dst)
    (hnd : (fs.files.map (fun e => e.path)).Nodup) :
    ((fs.moveFile src dst).files.map (fun e => e.path)).Nodup := by
  rw [moveFile_paths]
  apply hnd.map_on
  intro x hx y hy hxy
  have hxd : x ≠ dst := by
    rintro rfl
    obtain ⟨e, he, hep⟩ := List.mem_map.mp hx
    exact hfree ⟨e, he, hep⟩
  have hyd : y ≠ dst := by
    rintro rfl
    obtain ⟨e, he, hep⟩ := List.mem_map.mp hy
    exact hfree ⟨e, he, hep⟩
  by_cases hx1 : x = src <;> by_cases hy1 : y = src <;>
    simp only [hx1, hy1, if_true, if_false] at hxy
  · rw [hx1, hy1]
  · exact absurd hxy.symm hyd
  · exact absurd hxy hxd
  · exact hxy

theorem undo_go_nodup (ms : List MoveRecord) (fs fs1 : FS)
    (h : undo_go ms fs = .ok fs1)
    (hnd : (fs.files.map (fun e => e.path)).Nodup) :
    (fs1.files.map (fun e => e.path)).Nodup := by
  induction ms generalizing fs with
  | nil =>
    simp only [undo_go, Except.ok.injEq] at h
    rwa [← h]
  | cons r rest ih =>
    by_cases hdry : r.dry = true
    · simp only [undo_go, hdry, if_true] at h
      exact ih fs h hnd
    · by_cases hex : path_exists fs r.dst = true
      · simp only [undo_go, hdry, if_false, hex, if_true] at h
        by_cases hmf : fs.moveFails r.dst (make_unique_path fs r.src) = true
        · simp [hmf] at h
        · simp only [Bool.not_eq_true] at hmf
          simp only [hmf, if_false] at h
          refine ih _ h (nodup_after_move ?_ hnd)
          exact path_exists_false_no_file (make_unique_path_not_exists fs r.src)
      · simp only [undo_go, hdry, if_false, hex] at h
        exact ih fs h hnd

theorem undo_go_skip (ms : List MoveRecord) (fs : FS)
    (h : ∀ r ∈ ms, r.dry = true ∨ path_exists fs r.dst = false) :
    undo_go ms fs = .ok fs := by
  induction ms with
  | nil => rfl
  | cons r rest ih =>
    have htail : undo_go rest fs = .ok fs :=
      ih fun q hq => h q (List.mem_cons_of_mem r hq)
    by_cases hdry : r.dry = true
    · simp [undo_go, hdry, htail]
    · have hex : path_exists fs r.dst = false := by
        rcases h r (List.mem_cons_self r rest) with hd | he
        · exact absurd hd hdry
        · exact he
      simp [undo_go, hdry, hex, htail]

/-! ### Claim C3 -/

/-- C3: on a history whose last run is `run` (and with the filesystem
accepting every move), `undo_last` pops exactly that run, replays its
records — dry records and records whose destination no longer exists leave
the filesystem untouched, a surviving destination is moved back to
`make_unique_path(src)`, which never overwrites an existing entry (path
distinctness is preserved) — persists the shortened history, and a
subsequent `load_move_history` no longer contains the run. -/
theorem C3_undo_last (fs : FS) (hs : List RunRecord) (run : RunRecord)
    (hmf : ∀ a b, fs.moveFails a b = false) :
    ∃ fs1, undo_last ⟨fs, .parsed (.runs (hs ++ [run]))⟩ =
        .restored ⟨fs1, save_move_history hs⟩ run.moves.length ∧
      load_move_history (save_move_history hs) = .runs hs ∧
      ((fs.files.map (fun e => e.path)).Nodup → (fs1.files.map (fun e => e.path)).Nodup) ∧
      ((∀ r ∈ run.moves, r.dry = true ∨ path_exists fs r.dst = false) → fs1 = fs) ∧
      (∀ r, run.moves = [r] → r.dry = false → path_exists fs r.dst = true →
        fs1 = fs.moveFile r.dst (make_unique_path fs r.src)) := by
  obtain ⟨fs1, hgo, -⟩ := undo_go_ok run.moves.reverse fs hmf
  refine ⟨fs1, ?_, rfl, ?_, ?_, ?_⟩
  · rw [undo_last_append, hgo]
  · exact undo_go_nodup run.moves.reverse fs fs1 hgo
  · intro hall
    have : undo_go run.moves.reverse fs = .ok fs := by
      apply undo_go_skip
      intro r hr
      exact hall r (List.mem_reverse.mp hr)
    rw [this] at hgo
    injection hgo with h
    exact h.symm
  · intro r hrun hdry hex
    have : undo_go run.moves.reverse fs = .ok (fs.moveFile r.dst (make_unique_path fs r.src)) := by
      rw [hrun]
      have hm := hmf r.dst (make_unique_path fs r.src)
      simp [undo_go, hdry, hex, hm]
    rw [this] at hgo
    injection hgo with h
    exact h.symm

/-- Source of the C3 witness move. -/
def srcC3 : FilePath := ⟨["t"], ⟨"x", ".md"⟩⟩

/-- Destination of the C3 witness move. -/
def dstC3 : FilePath := ⟨["t", "Documents"], ⟨"x", ".md"⟩⟩

/-- The run the C3 witness undoes. -/
def runC3 : RunRecord := ⟨["t"], [⟨srcC3, dstC3, false⟩]⟩

/-- Filesystem after that run: the file sits at its destination. -/
def fsC3 : FS := ⟨[mkFile dstC3], [["t"], ["t", "Documents"]], noMoveFails⟩

theorem C3_undo_last_witness :
    undo_hist (undo_last ⟨fsC3, .parsed (.runs ([] ++ [runC3]))⟩) = save_move_history [] ∧
    undo_reported (undo_last ⟨fsC3, .parsed (.runs ([] ++ [runC3]))⟩) = some 1 := by
  obtain ⟨fs1, heq, -, -, -, -⟩ := C3_undo_last fsC3 [] runC3 (fun _ _ => rfl)
  rw [heq]
  exact ⟨rfl, rfl⟩

/-! ### Claim C4 -/

/-- The world of the C4 counterexample: the only record of the only run is
marked as a dry run. -/
def wC4 : World :=
  ⟨⟨[mkFile ⟨["t"], ⟨"y", ".q"⟩⟩], [["t"]], noMoveFails⟩,
   .parsed (.runs [⟨["t"], [⟨⟨["t"], ⟨"x", ".md"⟩⟩, ⟨["t", "D"], ⟨"x", ".md"⟩⟩, true⟩]⟩])⟩

/-- C4 counterexample: the info box reports `1` restored file although the
single record was a dry run and no file was moved at all (the file list is
unchanged), so the reported count is not the count actually restored. -/
theorem C4_counterexample :
    undo_reported (undo_last wC4) = some 1 ∧
    undo_files (undo_last wC4) = wC4.fs.files := by
  constructor <;> decide

/-- C4 amended: `undo_last` reports the total number of `MoveRecord`s of
the popped run — `len(moves)` — counting dry-run records and records whose
destination no longer exists, not the number actually restored. -/
theorem C4_undo_reported (fs : FS) (hs : List RunRecord) (run : RunRecord)
    (hmf : ∀ a b, fs.moveFails a b = false) :
    undo_reported (undo_last ⟨fs, .parsed (.runs (hs ++ [run]))⟩) =
      some run.moves.length := by
  rw [undo_last_append]
  obtain ⟨fs1, hgo, -⟩ := undo_go_ok run.moves.reverse fs hmf
  rw [hgo]
  rfl

/-- A world with one wholly dry run, for the C4 witness. -/
def fsC4w : FS := ⟨[mkFile ⟨["t"], ⟨"y", ".q"⟩⟩], [["t"]], noMoveFails⟩

/-- The single (dry) run of the C4 witness. -/
def runC4w : RunRecord := ⟨["t"], [⟨⟨["t"], ⟨"x", ".md"⟩⟩, ⟨["t", "D"], ⟨"x", ".md"⟩⟩, true⟩]⟩

theorem C4_undo_reported_witness :
    undo_reported (undo_last ⟨fsC4w, .parsed (.runs ([] ++ [runC4w]))⟩) =
      some runC4w.moves.length :=
  C4_undo_reported fsC4w [] runC4w (fun _ _ => rfl)

/-! ### Duplicate-finder lemmas -/

theorem addToGroup_paths (acc : List (String × List FilePath)) (h : String) (q : FilePath) :
    ∀ g ∈ addToGroup acc h q, ∀ p ∈ g.2, (∃ g0 ∈ acc, p ∈ g0.2) ∨ p = q := by
  induction acc with
  | nil =>
    intro g hg p hp
    simp only [addToGroup, List.mem_singleton] at hg
    subst hg
    simp only [List.mem_singleton] at hp
    exact Or.inr hp
  | cons a acc ih =>
    obtain ⟨h1, ps⟩ := a
    intro g hg p hp
    by_cases he : h1 = h
    · simp only [addToGroup, he, if_true, List.mem_cons] at hg
      rcases hg with rfl | hg
      · simp only [List.mem_append, List.mem_singleton] at hp
        rcases hp with hp | hp
        · exact Or.inl ⟨(h1, ps), List.mem_cons_self _ _, hp⟩
        · exact Or.inr hp
      · exact Or.inl ⟨g, List.mem_cons_of_mem _ hg, hp⟩
    · simp only [addToGroup, he, if_false, List.mem_cons] at hg
      rcases hg with rfl | hg
      · exact Or.inl ⟨(h1, ps), List.mem_cons_self _ _, hp⟩
      · rcases ih g hg p hp with ⟨g0, hg0, hpg0⟩ | hq
        · exact Or.inl ⟨g0, List.mem_cons_of_mem _ hg0, hpg0⟩
        · exact Or.inr hq

theorem dup_fold_paths (digest : List Nat → String) (P : FilePath → Prop) :
    ∀ (l : List FileEntry) (acc : List (String × List FilePath)),
      (∀ g ∈ acc, ∀ p ∈ g.2, P p) →
      (∀ e ∈ l, e.readable = true → P e.path) →
      ∀ g ∈ l.foldl (find_dup_step digest) acc, ∀ p ∈ g.2, P p := by
  intro l
  induction l with
  | nil => intro acc hacc _; exact hacc
  | cons e l ih =>
    intro acc hacc hl
    simp only [List.foldl_cons]
    apply ih
    · intro g hg p hp
      unfold find_dup_step at hg
      cases hre : e.readable with
      | false => simp only [get_file_hash, hre, Bool.false_eq_true, if_false] at hg
                 exact hacc g hg p hp
      | true =>
        simp only [get_file_hash, hre, if_true] at hg
        by_cases h0 : digest e.content = ""
        · simp only [h0, if_true] at hg
          exact hacc g hg p hp
        · simp only [h0, if_false] at hg
          rcases addToGroup_paths acc _ _ g hg p hp with ⟨g0, hg0, hpg0⟩ | rfl
          · exact hacc g0 hg0 p hpg0
          · exact hl e (List.mem_cons_self _ _) hre
    · intro q hq hrq
      exact hl q (List.mem_cons_of_mem _ hq) hrq

/-! ### Claim C7 -/

/-- C7: `find_duplicates` skips files whose hash is absent, groups the rest
by exact digest equality, and returns only groups with at least two
members; in particular, on a scan enumerating exactly three files of which
exactly the first two share their byte content (and the digests do not
collide), it returns exactly one group holding exactly those two files'
paths. -/
theorem C7_find_duplicates (digest : List Nat → String) (fs : FS) (target : Dir)
    (recursive : Bool) :
    (∀ g ∈ find_duplicates digest fs target recursive, 2 ≤ g.2.length) ∧
    (∀ g ∈ find_duplicates digest fs target recursive, ∀ p ∈ g.2,
      ∃ e ∈ list_files fs target recursive, e.path = p ∧ e.readable = true) ∧
    (∀ e1 e2 e3, list_files fs target recursive = [e1, e2, e3] →
      e1.readable = true → e2.readable = true →
      e1.content = e2.content →
      digest e1.content ≠ digest e3.content →
      digest e1.content ≠ "" →
      find_duplicates digest fs target recursive =
        [(digest e1.content, [e1.path, e2.path])]) := by
  refine ⟨?_, ?_, ?_⟩
  · intro g hg
    unfold find_duplicates at hg
    have := List.of_mem_filter hg
    simp only [decide_eq_true_eq] at this
    omega
  · intro g hg p hp
    unfold find_duplicates at hg
    refine dup_fold_paths digest
      (fun q => ∃ e ∈ list_files fs target recursive, e.path = q ∧ e.readable = true)
      (list_files fs target recursive) [] ?_ ?_ g (List.mem_of_mem_filter hg) p hp
    · intro g0 hg0
      simp at hg0
    · intro e he hre
      exact ⟨e, he, rfl, hre⟩
  · intro e1 e2 e3 hsnap hr1 hr2 hc hne3 hne0
    unfold find_duplicates
    rw [hsnap]
    have h2 : digest e2.content = digest e1.content := by rw [hc]
    have s1 : find_dup_step digest [] e1 = [(digest e1.content, [e1.path])] := by
      simp [find_dup_step, get_file_hash, hr1, hne0, addToGroup]
    have s2 : find_dup_step digest [(digest e1.content, [e1.path])] e2 =
        [(digest e1.content, [e1.path, e2.path])] := by
      simp [find_dup_step, get_file_hash, hr2, h2, hne0, addToGroup]
    have s3 : ∀ acc, find_dup_step digest acc e3 = acc ∨
        find_dup_step digest acc e3 = addToGroup acc (digest e3.content) e3.path := by
      intro acc
      cases hre : e3.readable with
      | false => exact Or.inl (by simp [find_dup_step, get_file_hash, hre])
      | true =>
        by_cases h0 : digest e3.content = ""
        · exact Or.inl (by simp [find_dup_step, get_file_hash, hre, h0])
        · exact Or.inr (by simp [find_dup_step, get_file_hash, hre, h0])
    simp only [List.foldl_cons, List.foldl_nil, s1, s2]
    rcases s3 [(digest e1.content, [e1.path, e2.path])] with h3 | h3 <;> rw [h3]
    · rfl
    · have : addToGroup [(digest e1.content, [e1.path, e2.path])] (digest e3.content) e3.path =
          [(digest e1.content, [e1.path, e2.path]), (digest e3.content, [e3.path])] := by
        simp [addToGroup, hne3]
      rw [this]
      rfl

/-- Entries of the C7 witness: two identical contents and one different. -/
def eC7a : FileEntry := ⟨⟨["t"], ⟨"a", ".bin"⟩⟩, [1], true, true, 1, 2024, 1⟩

/-- Second C7 witness entry (same bytes as the first). -/
def eC7b : FileEntry := ⟨⟨["t"], ⟨"b", ".bin"⟩⟩, [1], true, true, 1, 2024, 1⟩

/-- Third C7 witness entry (different bytes). -/
def eC7c : FileEntry := ⟨⟨["t"], ⟨"c", ".bin"⟩⟩, [2], true, true, 1, 2024, 1⟩

/-- The C7 witness filesystem. -/
def fsC7 : FS := ⟨[eC7a, eC7b, eC7c], [["t"]], noMoveFails⟩

/-- A concrete digest for the C7 witness. -/
def digestC7 : List Nat → String := fun c => if c = [1] then "x" else "y"

theorem C7_find_duplicates_witness :
    find_duplicates digestC7 fsC7 ["t"] true = [(digestC7 [1], [eC7a.path, eC7b.path])] :=
  (C7_find_duplicates digestC7 fsC7 ["t"] true).2.2 eC7a eC7b eC7c (by decide)
    rfl rfl rfl (by decide) (by decide)

/-! ### Organize failure lemmas -/

theorem organize_type_go_first_fail (m : List (String × List String)) (target : Dir)
    (e : FileEntry) (es : List FileEntry) (fs : FS)
    (hfail : ∀ q, fs.moveFails e.path q = true) :
    ∃ fsx, organize_type_go m target false (e :: es) fs = .error fsx ∧
      fsx.files = fs.files := by
  by_cases hb : dir_blocked fs.files
      (target ++ [find_category_by_ext m (strToLower e.path.base.suffix)]) = true
  · refine ⟨fs, ?_, rfl⟩
    simp only [organize_type_go, organize_type_step, hb, if_true]
  · have hb2 : dir_blocked fs.files
        (target ++ [find_category_by_ext m (strToLower e.path.base.suffix)]) = false := by
      revert hb
      cases dir_blocked fs.files
        (target ++ [find_category_by_ext m (strToLower e.path.base.suffix)]) <;> simp
    simp only [organize_type_go, organize_type_step, mkdir_parents, hb2, hfail,
      Bool.false_eq_true, if_false, if_true]
    exact ⟨_, rfl, rfl⟩

theorem organize_date_go_first_fail (target : Dir) (e : FileEntry) (es : List FileEntry)
    (fs : FS) (hstat : e.statOk = true)
    (hfail : ∀ q, fs.moveFails e.path q = true) :
    ∃ fsx, organize_date_go target false (e :: es) fs = .error fsx ∧
      fsx.files = fs.files := by
  by_cases hb : dir_blocked fs.files (target ++ [date_folder e]) = true
  · refine ⟨fs, ?_, rfl⟩
    simp only [organize_date_go, organize_date_step, hstat, hb, Bool.true_eq_false,
      if_false, if_true]
  · have hb2 : dir_blocked fs.files (target ++ [date_folder e]) = false := by
      revert hb
      cases dir_blocked fs.files (target ++ [date_folder e]) <;> simp
    simp only [organize_date_go, organize_date_step, mkdir_parents, hstat, hb2, hfail,
      Bool.true_eq_false, Bool.false_eq_true, if_false, if_true]
    exact ⟨_, rfl, rfl⟩

/-! ### Claim C2 -/

/-- C2 amended: a failing `shutil.move` is not caught inside either
organize loop — the exception propagates.  When the very first enumerated
file's move fails, the whole call aborts: no record list is returned, no
file has been moved, and the remaining files are not processed.  (The GUI
worker catches the exception outside the call and only logs it.) -/
theorem C2_organize_abort (fs : FS) (m : List (String × List String)) (target : Dir)
    (recursive : Bool) (e : FileEntry) (es : List FileEntry)
    (hsnap : list_files fs target recursive = e :: es)
    (hfail : ∀ q, fs.moveFails e.path q = true) :
    (isOkE (organize_by_type fs m target false recursive) = false ∧
      resultRecords (organize_by_type fs m target false recursive) = none ∧
      resultFiles (organize_by_type fs m target false recursive) = fs.files) ∧
    (e.statOk = true →
      isOkE (organize_by_date fs target false recursive) = false ∧
      resultRecords (organize_by_date fs target false recursive) = none ∧
      resultFiles (organize_by_date fs target false recursive) = fs.files) := by
  constructor
  · obtain ⟨fsx, hx, hfiles⟩ := organize_type_go_first_fail m target e es fs hfail
    have horg : organize_by_type fs m target false recursive = .error fsx := by
      rw [organize_by_type, hsnap, hx]
    rw [horg]
    exact ⟨rfl, rfl, hfiles⟩
  · intro hstat
    obtain ⟨fsx, hx, hfiles⟩ := organize_date_go_first_fail target e es fs hstat hfail
    have horg : organize_by_date fs target false recursive = .error fsx := by
      rw [organize_by_date, hsnap, hx]
    rw [horg]
    exact ⟨rfl, rfl, hfiles⟩

/-- First file of the C2 examples (its move will fail). -/
def eC2a : FileEntry := mkFile ⟨["t"], ⟨"a", ".jpg"⟩⟩

/-- Second file of the C2 examples (never reached). -/
def eC2b : FileEntry := mkFile ⟨["t"], ⟨"b", ".txt"⟩⟩

/-- A small extension map for the C2 examples. -/
def mC2 : List (String × List String) := [("Images", [".jpg"])]

/-- Filesystem in which only moves of `a.jpg` raise. -/
def fsC2 : FS := ⟨[eC2a, eC2b], [["t"]], fun s _ => decide (s = ⟨["t"], ⟨"a", ".jpg"⟩⟩)⟩

/-- C2 counterexample: with two files of which the first fails to move,
`organize_by_type` does not complete, hands back no record list at all
(so the failed file is not merely "excluded"), and the second file is left
unprocessed — its entry is unchanged in the resulting file list. -/
theorem C2_counterexample :
    isOkE (organize_by_type fsC2 mC2 ["t"] false false) = false ∧
    resultRecords (organize_by_type fsC2 mC2 ["t"] false false) = none ∧
    resultFiles (organize_by_type fsC2 mC2 ["t"] false false) = fsC2.files := by
  refine ⟨?_, ?_, ?_⟩ <;> decide

/-- Filesystem in which every move raises, for the C2 witness. -/
def fsC2w : FS := ⟨[eC2a, eC2b], [["t"]], fun _ _ => true⟩

theorem C2_organize_abort_witness :
    (isOkE (organize_by_type fsC2w mC2 ["t"] false false) = false ∧
      resultRecords (organize_by_type fsC2w mC2 ["t"] false false) = none ∧
      resultFiles (organize_by_type fsC2w mC2 ["t"] false false) = fsC2w.files) ∧
    (isOkE (organize_by_date fsC2w ["t"] false false) = false ∧
      resultRecords (organize_by_date fsC2w ["t"] false false) = none ∧
      resultFiles (organize_by_date fsC2w ["t"] false false) = fsC2w.files) := by
  obtain ⟨h1, h2⟩ := C2_organize_abort fsC2w mC2 ["t"] false eC2a [eC2b] (by decide)
    (fun _ => rfl)
  exact ⟨h1, h2 rfl⟩

/-! ### Claim C10 lemmas -/

theorem organize_type_step_src (m : List (String × List String)) (target : Dir)
    (dry : Bool) (e : FileEntry) (fs fs1 : FS) (r : MoveRecord)
    (h : organize_type_step m target dry e fs = (fs1, some r)) : r.src = e.path := by
  simp only [organize_type_step] at h
  split_ifs at h <;> injection h with hfs hopt <;>
    first
      | (injection hopt with h3
         rw [← h3])
      | injection hopt

theorem organize_date_step_src (target : Dir) (dry : Bool) (e : FileEntry) (fs fs1 : FS)
    (r : MoveRecord) (h : organize_date_step target dry e fs = (fs1, some r)) :
    r.src = e.path := by
  simp only [organize_date_step] at h
  split_ifs at h <;> injection h with hfs hopt <;>
    first
      | (injection hopt with h3
         rw [← h3])
      | injection hopt

theorem organize_type_go_srcs (m : List (String × List String)) (target : Dir) (dry : Bool) :
    ∀ (es : List FileEntry) (fs : FS) (rs : List MoveRecord) (fs2 : FS),
      organize_type_go m target dry es fs = .ok (rs, fs2) →
      rs.map MoveRecord.src = es.map (fun e => e.path) := by
  intro es
  induction es with
  | nil =>
    intro fs rs fs2 h
    simp only [organize_type_go, Except.ok.injEq, Prod.mk.injEq] at h
    rw [← h.1]
    rfl
  | cons e es ih =>
    intro fs rs fs2 h
    simp only [organize_type_go] at h
    rcases hstep : organize_type_step m target dry e fs with ⟨fs1, ro⟩
    rw [hstep] at h
    cases ro with
    | none =>
      have h2 : (Except.error fs1 : Except FS (List MoveRecord × FS)) =
          Except.ok (rs, fs2) := h
      exact Except.noConfusion h2
    | some r =>
      dsimp only at h
      rcases hrec : organize_type_go m target dry es fs1 with fsx | ⟨rs1, fsy⟩ <;>
        rw [hrec] at h
      · have h2 : (Except.error fsx : Except FS (List MoveRecord × FS)) =
            Except.ok (rs, fs2) := h
        exact Except.noConfusion h2
      · have h2 : (Except.ok (r :: rs1, fsy) : Except FS (List MoveRecord × FS)) =
            Except.ok (rs, fs2) := h
        injection h2 with h3
        rw [Prod.mk.injEq] at h3
        rw [← h3.1, List.map_cons, List.map_cons,
          organize_type_step_src m target dry e fs fs1 r hstep,
          ih fs1 rs1 fsy hrec]

theorem organize_date_go_srcs (target : Dir) (dry : Bool) :
    ∀ (es : List FileEntry) (fs : FS) (rs : List MoveRecord) (fs2 : FS),
      organize_date_go target dry es fs = .ok (rs, fs2) →
      rs.map MoveRecord.src = es.map (fun e => e.path) := by
  intro es
  induction es with
  | nil =>
    intro fs rs fs2 h
    simp only [organize_date_go, Except.ok.injEq, Prod.mk.injEq] at h
    rw [← h.1]
    rfl
  | cons e es ih =>
    intro fs rs fs2 h
    simp only [organize_date_go] at h
    rcases hstep : organize_date_step target dry e fs with ⟨fs1, ro⟩
    rw [hstep] at h
    cases ro with
    | none =>
      have h2 : (Except.error fs1 : Except FS (List MoveRecord × FS)) =
          Except.ok (rs, fs2) := h
      exact Except.noConfusion h2
    | some r =>
      dsimp only at h
      rcases hrec : organize_date_go target dry es fs1 with fsx | ⟨rs1, fsy⟩ <;>
        rw [hrec] at h
      · have h2 : (Except.error fsx : Except FS (List MoveRecord × FS)) =
            Except.ok (rs, fs2) := h
        exact Except.noConfusion h2
      · have h2 : (Except.ok (r :: rs1, fsy) : Except FS (List MoveRecord × FS)) =
            Except.ok (rs, fs2) := h
        injection h2 with h3
        rw [Prod.mk.injEq] at h3
        rw [← h3.1, List.map_cons, List.map_cons,
          organize_date_step_src target dry e fs fs1 r hstep,
          ih fs1 rs1 fsy hrec]

theorem list_files_sublist (fs : FS) (target : Dir) (recursive : Bool) :
    List.Sublist (list_files fs target recursive) fs.files := by
  cases recursive <;> simp only [list_files, Bool.false_eq_true, if_false, if_true] <;>
    exact List.filter_sublist _

/-! ### Claim C10 -/

/-- C10: both organize strategies snapshot the enumeration before moving
anything; on a completed call the returned records carry exactly the
snapshot's paths as sources, one record per enumerated file in order —
so a file moved during the run is never re-enumerated — and when the
filesystem held no duplicate paths, no source path repeats (no file is
moved twice). -/
theorem C10_snapshot (fs : FS) (m : List (String × List String)) (target : Dir)
    (dry recursive : Bool) :
    (∀ rs, resultRecords (organize_by_type fs m target dry recursive) = some rs →
      rs.map MoveRecord.src = (list_files fs target recursive).map (fun e => e.path) ∧
      ((fs.files.map (fun e => e.path)).Nodup → (rs.map MoveRecord.src).Nodup)) ∧
    (∀ rs, resultRecords (organize_by_date fs target dry recursive) = some rs →
      rs.map MoveRecord.src = (list_files fs target recursive).map (fun e => e.path) ∧
      ((fs.files.map (fun e => e.path)).Nodup → (rs.map MoveRecord.src).Nodup)) := by
  have hsub : List.Sublist ((list_files fs target recursive).map (fun e => e.path))
      (fs.files.map (fun e => e.path)) :=
    (list_files_sublist fs target recursive).map _
  constructor
  · intro rs h
    rcases horg : organize_by_type fs m target dry recursive with fsx | ⟨rs1, fs2⟩ <;>
      rw [horg] at h
    · exact Option.noConfusion h
    · simp only [resultRecords, Option.some.injEq] at h
      subst h
      have hsrc := organize_type_go_srcs m target dry (list_files fs target recursive)
        fs rs1 fs2 horg
      exact ⟨hsrc, fun hnd => by rw [hsrc]; exact hnd.sublist hsub⟩
  · intro rs h
    rcases horg : organize_by_date fs target dry recursive with fsx | ⟨rs1, fs2⟩ <;>
      rw [horg] at h
    · exact Option.noConfusion h
    · simp only [resultRecords, Option.some.injEq] at h
      subst h
      have hsrc := organize_date_go_srcs target dry (list_files fs target recursive)
        fs rs1 fs2 horg
      exact ⟨hsrc, fun hnd => by rw [hsrc]; exact hnd.sublist hsub⟩

/-- The C10 witness filesystem: one image in the target directory. -/
def fsC10 : FS := ⟨[mkFile ⟨["t"], ⟨"a", ".jpg"⟩⟩], [["t"]], noMoveFails⟩

theorem C10_snapshot_witness :
    ([⟨(⟨["t"], ⟨"a", ".jpg"⟩⟩ : FilePath), ⟨["t", "Images"], ⟨"a", ".jpg"⟩⟩, false⟩] :
        List MoveRecord).map MoveRecord.src =
      (list_files fsC10 ["t"] false).map (fun e => e.path) ∧
    (([⟨(⟨["t"], ⟨"a", ".jpg"⟩⟩ : FilePath), ⟨["t", "Images"], ⟨"a", ".jpg"⟩⟩, false⟩] :
        List MoveRecord).map MoveRecord.src).Nodup := by
  have h := (C10_snapshot fsC10 mC2 ["t"] false false).1
    [⟨⟨["t"], ⟨"a", ".jpg"⟩⟩, ⟨["t", "Images"], ⟨"a", ".jpg"⟩⟩, false⟩] (by decide)
  exact ⟨h.1, h.2 (by decide)⟩

/-! ### Stats lemmas -/

theorem stats_fold (m : List (String × List String)) :
    ∀ (l : List FileEntry) (a : List (String × Nat) × Nat × Nat),
      l.foldl (stats_step m) a =
        (a.1.map (fun p => (p.1, p.2 + (l.filter (fun e =>
            decide (find_category_by_ext m e.path.base.suffix = p.1))).length)),
          a.2.1 + l.length,
          a.2.2 + ((l.filter (fun e => e.statOk)).map (fun e => e.size)).sum) := by
  intro l
  induction l with
  | nil =>
    intro a
    obtain ⟨c, t, s⟩ := a
    simp
  | cons e l ih =>
    intro a
    obtain ⟨c, t, s⟩ := a
    rw [List.foldl_cons, ih (stats_step m (c, t, s) e)]
    simp only [stats_step]
    refine Prod.ext ?_ (Prod.ext ?_ ?_)
    · simp only [bump_count, List.map_map]
      apply List.map_congr_left
      intro p hp
      by_cases hc : p.1 = find_category_by_ext m e.path.base.suffix
      · have hc2 : decide (find_category_by_ext m e.path.base.suffix = p.1) = true := by
          simp [hc]
        rw [Function.comp_apply, if_pos hc]
        simp only [List.filter_cons, hc2, if_true, List.length_cons]
        dsimp only
        exact Prod.ext rfl (by omega)
      · have hc2 : decide (find_category_by_ext m e.path.base.suffix = p.1) = false := by
          simp only [decide_eq_false_iff_not]
          exact fun hx => hc hx.symm
        rw [Function.comp_apply, if_neg hc]
        simp only [List.filter_cons, hc2, Bool.false_eq_true, if_false]
    · simp only [List.length_cons]
      omega
    · simp only [List.filter_cons]
      cases hst : e.statOk
      · simp
      · simp
        omega

theorem init_counts_val (m : List (String × List String)) :
    ∀ p ∈ init_counts m, p.2 = 0 := by
  intro p hp
  unfold init_counts at hp
  by_cases h : DEFAULT_OTHER ∈ m.map Prod.fst
  · simp only [h, if_true] at hp
    obtain ⟨q, -, hq⟩ := List.mem_map.mp hp
    rw [← hq]
  · simp only [h, if_false, List.mem_append] at hp
    rcases hp with hp | hp
    · obtain ⟨q, -, hq⟩ := List.mem_map.mp hp
      rw [← hq]
    · simp only [List.mem_singleton] at hp
      rw [hp]

theorem init_counts_keys (m : List (String × List String))
    (h : DEFAULT_OTHER ∉ m.map Prod.fst) :
    (init_counts m).map Prod.fst = m.map Prod.fst ++ [DEFAULT_OTHER] := by
  unfold init_counts
  simp only [h, if_false, List.map_append, List.map_map]
  rfl

/-! ### Claim C9 -/

/-- C9 amended: `gather_stats_for_dashboard` returns the exact file count,
a per-category count covering every configured category plus the fallback
(each key's count being the number of enumerated files classified to it),
and the total size of all stat-able files — but expressed in mebibytes
rounded to two decimals (`total_size_mb`), not in bytes; files whose
`stat` fails are skipped in the size total, not fatal. -/
theorem C9_gather_stats (fs : FS) (m : List (String × List String)) (target : Dir)
    (recursive : Bool) :
    (gather_stats_for_dashboard fs m target recursive).total_files =
      (list_files fs target recursive).length ∧
    (DEFAULT_OTHER ∉ m.map Prod.fst →
      (gather_stats_for_dashboard fs m target recursive).counts.map Prod.fst =
        m.map Prod.fst ++ [DEFAULT_OTHER]) ∧
    (∀ c ∈ (gather_stats_for_dashboard fs m target recursive).counts,
      c.2 = ((list_files fs target recursive).filter (fun e =>
        decide (find_category_by_ext m e.path.base.suffix = c.1))).length) ∧
    (gather_stats_for_dashboard fs m target recursive).total_size_mb =
      round2 ((((((list_files fs target recursive).filter (fun e => e.statOk)).map
        (fun e => e.size)).sum : Nat) : ℚ) / (1024 * 1024)) := by
  have hfold := stats_fold m (list_files fs target recursive) (init_counts m, 0, 0)
  simp only [gather_stats_for_dashboard, hfold]
  refine ⟨by omega, ?_, ?_, by rw [Nat.zero_add]⟩
  · intro hO
    simp only [List.map_map]
    rw [← init_counts_keys m hO]
    apply List.map_congr_left
    intro p _
    rfl
  · intro c hc
    simp only [List.mem_map] at hc
    obtain ⟨p, hp, hcp⟩ := hc
    rw [← hcp]
    simp only [init_counts_val m p hp, Nat.zero_add]

/-- A 3 MiB image, for the C9 counterexample. -/
def fsC9 : FS :=
  ⟨[⟨⟨["t"], ⟨"big", ".jpg"⟩⟩, [], true, true, 3145728, 2024, 1⟩], [["t"]], noMoveFails⟩

/-- C9 counterexample: for a directory holding one 3 MiB file the returned
size field is `3.0` — mebibytes rounded to two decimals — and not the byte
total `3145728` the claim asserts. -/
theorem C9_counterexample :
    (gather_stats_for_dashboard fsC9 mC2 ["t"] false).total_size_mb = 3 ∧
    (gather_stats_for_dashboard fsC9 mC2 ["t"] false).total_size_mb ≠ 3145728 := by
  have hsum : ((((list_files fsC9 ["t"] false).filter (fun e => e.statOk)).map
      (fun e => e.size)).sum : Nat) = 3145728 := by decide
  have hmb := (C9_gather_stats fsC9 mC2 ["t"] false).2.2.2
  rw [hsum] at hmb
  have hq : ((3145728 : Nat) : ℚ) / (1024 * 1024) = 3 := by norm_num
  rw [hq] at hmb
  have hr : round2 3 = 3 := by
    unfold round2
    rw [show ((3 : ℚ) * 100) = ((300 : ℤ) : ℚ) by norm_num, round_intCast]
    norm_num
  rw [hr] at hmb
  exact ⟨hmb, by rw [hmb]; norm_num⟩

theorem C9_gather_stats_witness :
    (gather_stats_for_dashboard fsC9 DEFAULT_EXT_MAP ["t"] false).total_files =
      (list_files fsC9 ["t"] false).length ∧
    (gather_stats_for_dashboard fsC9 DEFAULT_EXT_MAP ["t"] false).counts.map Prod.fst =
      DEFAULT_EXT_MAP.map Prod.fst ++ [DEFAULT_OTHER] :=
  ⟨(C9_gather_stats fsC9 DEFAULT_EXT_MAP ["t"] false).1,
   (C9_gather_stats fsC9 DEFAULT_EXT_MAP ["t"] false).2.1 (by decide)⟩

/-! ### Dry-run lemmas (claim C1)

A dry run still calls `mkdir(parents=True, exist_ok=True)` for every
destination directory.  The directories so created all have at most
`target.length + 1` components, while the existence checks of
`make_unique_path` during an organize run only consult directories with
`target.length + 2` components — hence a second dry run proposes the same
destinations. -/

theorem path_exists_congr {fs1 fs2 : FS} {p : FilePath}
    (hf : fs1.files = fs2.files)
    (hd : ∀ d : Dir, d.length = p.parent.length + 1 → (d ∈ fs1.dirs ↔ d ∈ fs2.dirs)) :
    path_exists fs1 p = path_exists fs2 p := by
  unfold path_exists
  rw [hf]
  congr 1
  rw [decide_eq_decide]
  exact hd (p.parent ++ [p.base.name]) (by simp)

theorem make_unique_path_congr {fs1 fs2 : FS} {dest : FilePath}
    (hf : fs1.files = fs2.files)
    (hd : ∀ d : Dir, d.length = dest.parent.length + 1 → (d ∈ fs1.dirs ↔ d ∈ fs2.dirs)) :
    make_unique_path fs1 dest = make_unique_path fs2 dest := by
  have hpe : ∀ q : FilePath, q.parent = dest.parent →
      path_exists fs1 q = path_exists fs2 q := by
    intro q hq
    refine path_exists_congr hf ?_
    intro d hlen
    exact hd d (by rw [hlen, hq])
  unfold make_unique_path
  rw [hpe dest rfl]
  by_cases h : path_exists fs2 dest = true
  · simp only [h, if_true]
    have hfind : Nat.find (p := fun c => path_exists fs1 (candidate dest (c + 1)) = false)
          (exists_free_candidate fs1 dest) =
        Nat.find (p := fun c => path_exists fs2 (candidate dest (c + 1)) = false)
          (exists_free_candidate fs2 dest) := by
      apply le_antisymm
      · apply Nat.find_min'
        rw [hpe (candidate dest (Nat.find (exists_free_candidate fs2 dest) + 1)) rfl]
        exact Nat.find_spec (exists_free_candidate fs2 dest)
      · apply Nat.find_min'
        rw [← hpe (candidate dest (Nat.find (exists_free_candidate fs1 dest) + 1)) rfl]
        exact Nat.find_spec (exists_free_candidate fs1 dest)
    rw [hfind]
  · have h2 : path_exists fs2 dest = false := by
      revert h
      cases path_exists fs2 dest <;> simp
    simp only [h2, Bool.false_eq_true, if_false]

theorem mkdir_parents_files (fs : FS) (d : Dir) : (mkdir_parents fs d).files = fs.files := rfl

theorem mem_mkdir_parents {fs : FS} {d x : Dir}
    (hx : x ∈ (mkdir_parents fs d).dirs) : x ∈ fs.dirs ∨ x.length ≤ d.length := by
  unfold mkdir_parents at hx
  simp only [List.mem_append, List.mem_filter] at hx
  rcases hx with hx | ⟨hx, -⟩
  · exact Or.inl hx
  · exact Or.inr ((List.mem_inits _ _).mp hx).length_le

theorem mkdir_parents_dirs_mono {fs : FS} {d x : Dir} (hx : x ∈ fs.dirs) :
    x ∈ (mkdir_parents fs d).dirs :=
  List.mem_append_left _ hx

theorem mem_mkdir_parents_iff_of_long {fs : FS} {d x : Dir} (h : d.length < x.length) :
    x ∈ (mkdir_parents fs d).dirs ↔ x ∈ fs.dirs :=
  ⟨fun hx => (mem_mkdir_parents hx).resolve_right (by omega), mkdir_parents_dirs_mono⟩

theorem organize_type_go_dry (m : List (String × List String)) (target : Dir) :
    ∀ (es : List FileEntry) (fs1 fs2 : FS),
      (∀ e ∈ es, dir_blocked fs1.files
        (target ++ [find_category_by_ext m (strToLower e.path.base.suffix)]) = false) →
      fs1.files = fs2.files →
      (∀ d : Dir, d.length = target.length + 2 → (d ∈ fs1.dirs ↔ d ∈ fs2.dirs)) →
      ∃ rs g1 g2,
        organize_type_go m target true es fs1 = .ok (rs, g1) ∧
        organize_type_go m target true es fs2 = .ok (rs, g2) ∧
        g1.files = fs1.files ∧ g2.files = fs2.files ∧
        (∀ d ∈ g1.dirs, d ∈ fs1.dirs ∨ d.length ≤ target.length + 1) ∧
        (∀ d ∈ fs1.dirs, d ∈ g1.dirs) ∧
        (∀ d : Dir, d.length = target.length + 2 → (d ∈ g1.dirs ↔ d ∈ g2.dirs)) := by
  intro es
  induction es with
  | nil =>
    intro fs1 fs2 _ hf hd
    exact ⟨[], fs1, fs2, rfl, rfl, rfl, rfl, fun d hdd => Or.inl hdd, fun d hdd => hdd, hd⟩
  | cons e es ih =>
    intro fs1 fs2 hnb hf hd
    have hnb1 : dir_blocked fs1.files
        (target ++ [find_category_by_ext m (strToLower e.path.base.suffix)]) = false :=
      hnb e (List.mem_cons_self e es)
    have hnb2 : dir_blocked fs2.files
        (target ++ [find_category_by_ext m (strToLower e.path.base.suffix)]) = false := by
      rw [← hf]
      exact hnb1
    have hdestlen : (target ++
        [find_category_by_ext m (strToLower e.path.base.suffix)]).length =
        target.length + 1 := by simp
    have hd1 : ∀ d : Dir, d.length = target.length + 2 →
        (d ∈ (mkdir_parents fs1 (target ++
            [find_category_by_ext m (strToLower e.path.base.suffix)])).dirs ↔
         d ∈ (mkdir_parents fs2 (target ++
            [find_category_by_ext m (strToLower e.path.base.suffix)])).dirs) := by
      intro d hlen
      rw [mem_mkdir_parents_iff_of_long (by omega),
        mem_mkdir_parents_iff_of_long (by omega)]
      exact hd d hlen
    have hdest : make_unique_path (mkdir_parents fs1 (target ++
          [find_category_by_ext m (strToLower e.path.base.suffix)]))
        ⟨target ++ [find_category_by_ext m (strToLower e.path.base.suffix)], e.path.base⟩ =
        make_unique_path (mkdir_parents fs2 (target ++
          [find_category_by_ext m (strToLower e.path.base.suffix)]))
        ⟨target ++ [find_category_by_ext m (strToLower e.path.base.suffix)], e.path.base⟩ := by
      refine make_unique_path_congr ?_ ?_
      · rw [mkdir_parents_files, mkdir_parents_files, hf]
      · intro d hlen
        exact hd1 d (by rw [hlen, hdestlen])
    have hstep1 : organize_type_step m target true e fs1 =
        (mkdir_parents fs1 (target ++
          [find_category_by_ext m (strToLower e.path.base.suffix)]),
         some ⟨e.path, make_unique_path (mkdir_parents fs1 (target ++
            [find_category_by_ext m (strToLower e.path.base.suffix)]))
          ⟨target ++ [find_category_by_ext m (strToLower e.path.base.suffix)],
            e.path.base⟩, true⟩) := by
      simp only [organize_type_step, hnb1, Bool.false_eq_true, if_false, if_true]
    have hstep2 : organize_type_step m target true e fs2 =
        (mkdir_parents fs2 (target ++
          [find_category_by_ext m (strToLower e.path.base.suffix)]),
         some ⟨e.path, make_unique_path (mkdir_parents fs1 (target ++
            [find_category_by_ext m (strToLower e.path.base.suffix)]))
          ⟨target ++ [find_category_by_ext m (strToLower e.path.base.suffix)],
            e.path.base⟩, true⟩) := by
      rw [hdest]
      simp only [organize_type_step, hnb2, Bool.false_eq_true, if_false, if_true]
    obtain ⟨rs, g1, g2, hgo1, hgo2, hg1f, hg2f, hadd, hmono, hagree⟩ :=
      ih (mkdir_parents fs1 (target ++
          [find_category_by_ext m (strToLower e.path.base.suffix)]))
        (mkdir_parents fs2 (target ++
          [find_category_by_ext m (strToLower e.path.base.suffix)]))
        (fun q hq => hnb q (List.mem_cons_of_mem e hq))
        (by rw [mkdir_parents_files, mkdir_parents_files, hf]) hd1
    refine ⟨⟨e.path, make_unique_path (mkdir_parents fs1 (target ++
        [find_category_by_ext m (strToLower e.path.base.suffix)]))
      ⟨target ++ [find_category_by_ext m (strToLower e.path.base.suffix)],
        e.path.base⟩, true⟩ :: rs, g1, g2, ?_, ?_, ?_, ?_, ?_, ?_, hagree⟩
    · simp only [organize_type_go]
      rw [hstep1]
      dsimp only
      rw [hgo1]
    · simp only [organize_type_go]
      rw [hstep2]
      dsimp only
      rw [hgo2]
    · rw [hg1f, mkdir_parents_files]
    · rw [hg2f, mkdir_parents_files]
    · intro d hdd
      rcases hadd d hdd with hin | hshort
      · rcases mem_mkdir_parents hin with hin2 | hshort2
        · exact Or.inl hin2
        · exact Or.inr (by omega)
      · exact Or.inr hshort
    · intro d hdd
      exact hmono d (mkdir_parents_dirs_mono hdd)

theorem organize_date_go_dry (target : Dir) :
    ∀ (es : List FileEntry) (fs1 fs2 : FS),
      (∀ e ∈ es, e.statOk = true) →
      (∀ e ∈ es, dir_blocked fs1.files (target ++ [date_folder e]) = false) →
      fs1.files = fs2.files →
      (∀ d : Dir, d.length = target.length + 2 → (d ∈ fs1.dirs ↔ d ∈ fs2.dirs)) →
      ∃ rs g1 g2,
        organize_date_go target true es fs1 = .ok (rs, g1) ∧
        organize_date_go target true es fs2 = .ok (rs, g2) ∧
        g1.files = fs1.files ∧ g2.files = fs2.files ∧
        (∀ d ∈ g1.dirs, d ∈ fs1.dirs ∨ d.length ≤ target.length + 1) ∧
        (∀ d ∈ fs1.dirs, d ∈ g1.dirs) ∧
        (∀ d : Dir, d.length = target.length + 2 → (d ∈ g1.dirs ↔ d ∈ g2.dirs)) := by
  intro es
  induction es with
  | nil =>
    intro fs1 fs2 _ _ hf hd
    exact ⟨[], fs1, fs2, rfl, rfl, rfl, rfl, fun d hdd => Or.inl hdd, fun d hdd => hdd, hd⟩
  | cons e es ih =>
    intro fs1 fs2 hstat hnb hf hd
    have hstat1 : e.statOk = true := hstat e (List.mem_cons_self e es)
    have hnb1 : dir_blocked fs1.files (target ++ [date_folder e]) = false :=
      hnb e (List.mem_cons_self e es)
    have hnb2 : dir_blocked fs2.files (target ++ [date_folder e]) = false := by
      rw [← hf]
      exact hnb1
    have hdestlen : (target ++ [date_folder e]).length = target.length + 1 := by simp
    have hd1 : ∀ d : Dir, d.length = target.length + 2 →
        (d ∈ (mkdir_parents fs1 (target ++ [date_folder e])).dirs ↔
         d ∈ (mkdir_parents fs2 (target ++ [date_folder e])).dirs) := by
      intro d hlen
      rw [mem_mkdir_parents_iff_of_long (by omega),
        mem_mkdir_parents_iff_of_long (by omega)]
      exact hd d hlen
    have hdest : make_unique_path (mkdir_parents fs1 (target ++ [date_folder e]))
        ⟨target ++ [date_folder e], e.path.base⟩ =
        make_unique_path (mkdir_parents fs2 (target ++ [date_folder e]))
        ⟨target ++ [date_folder e], e.path.base⟩ := by
      refine make_unique_path_congr ?_ ?_
      · rw [mkdir_parents_files, mkdir_parents_files, hf]
      · intro d hlen
        exact hd1 d (by rw [hlen, hdestlen])
    have hstep1 : organize_date_step target true e fs1 =
        (mkdir_parents fs1 (target ++ [date_folder e]),
         some ⟨e.path, make_unique_path (mkdir_parents fs1 (target ++ [date_folder e]))
          ⟨target ++ [date_folder e], e.path.base⟩, true⟩) := by
      simp only [organize_date_step, hstat1, hnb1, Bool.true_eq_false, Bool.false_eq_true,
        if_false, if_true]
    have hstep2 : organize_date_step target true e fs2 =
        (mkdir_parents fs2 (target ++ [date_folder e]),
         some ⟨e.path, make_unique_path (mkdir_parents fs1 (target ++ [date_folder e]))
          ⟨target ++ [date_folder e], e.path.base⟩, true⟩) := by
      rw [hdest]
      simp only [organize_date_step, hstat1, hnb2, Bool.true_eq_false, Bool.false_eq_true,
        if_false, if_true]
    obtain ⟨rs, g1, g2, hgo1, hgo2, hg1f, hg2f, hadd, hmono, hagree⟩ :=
      ih (mkdir_parents fs1 (target ++ [date_folder e]))
        (mkdir_parents fs2 (target ++ [date_folder e]))
        (fun q hq => hstat q (List.mem_cons_of_mem e hq))
        (fun q hq => hnb q (List.mem_cons_of_mem e hq))
        (by rw [mkdir_parents_files, mkdir_parents_files, hf]) hd1
    refine ⟨⟨e.path, make_unique_path (mkdir_parents fs1 (target ++ [date_folder e]))
      ⟨target ++ [date_folder e], e.path.base⟩, true⟩ :: rs, g1, g2,
      ?_, ?_, ?_, ?_, ?_, ?_, hagree⟩
    · simp only [organize_date_go]
      rw [hstep1]
      dsimp only
      rw [hgo1]
    · simp only [organize_date_go]
      rw [hstep2]
      dsimp only
      rw [hgo2]
    · rw [hg1f, mkdir_parents_files]
    · rw [hg2f, mkdir_parents_files]
    · intro d hdd
      rcases hadd d hdd with hin | hshort
      · rcases mem_mkdir_parents hin with hin2 | hshort2
        · exact Or.inl hin2
        · exact Or.inr (by omega)
      · exact Or.inr hshort
    · intro d hdd
      exact hmono d (mkdir_parents_dirs_mono hdd)

theorem list_files_congr {fsA fsB : FS} (target : Dir) (recursive : Bool)
    (hf : fsA.files = fsB.files) :
    list_files fsA target recursive = list_files fsB target recursive := by
  unfold list_files
  rw [hf]

/-! ### Claim C1 -/

/-- C1 amended: provided no destination-directory path is blocked by a
regular file (`mkdir(parents=True, exist_ok=True)` raises then, even in a
dry run) — and, for the by-date strategy, provided every enumerated file's
`stat` succeeds (`f.stat()` also raises in a dry run) — two consecutive
dry runs of either strategy on an unmodified directory complete and return
the same list of proposed records (hence the same destinations), and
neither run moves any file.  A dry run is still not mutation-free: it
creates the destination directories, `mkdir` being executed regardless of
`dry_run`. -/
theorem C1_dry_run (fs : FS) (m : List (String × List String)) (target : Dir)
    (recursive : Bool) :
    ((∀ e ∈ list_files fs target recursive, dir_blocked fs.files
        (target ++ [find_category_by_ext m (strToLower e.path.base.suffix)]) = false) →
      ∃ rs fsA fsB,
        organize_by_type fs m target true recursive = .ok (rs, fsA) ∧
        fsA.files = fs.files ∧
        organize_by_type fsA m target true recursive = .ok (rs, fsB) ∧
        fsB.files = fs.files) ∧
    ((∀ e ∈ list_files fs target recursive, e.statOk = true) →
      (∀ e ∈ list_files fs target recursive,
        dir_blocked fs.files (target ++ [date_folder e]) = false) →
      ∃ rs fsA fsB,
        organize_by_date fs target true recursive = .ok (rs, fsA) ∧
        fsA.files = fs.files ∧
        organize_by_date fsA target true recursive = .ok (rs, fsB) ∧
        fsB.files = fs.files) := by
  constructor
  · intro hnb
    obtain ⟨rs, g1, g2, hgo1, -, hg1f, -, hadd, hmono, -⟩ :=
      organize_type_go_dry m target (list_files fs target recursive) fs fs hnb rfl
        (fun d _ => Iff.rfl)
    have hR : ∀ d : Dir, d.length = target.length + 2 → (d ∈ fs.dirs ↔ d ∈ g1.dirs) := by
      intro d hlen
      constructor
      · exact hmono d
      · intro hdg
        rcases hadd d hdg with h1 | h2
        · exact h1
        · omega
    obtain ⟨rs2, gA, gB, hgoA, hgoB, hgAf, hgBf, -, -, -⟩ :=
      organize_type_go_dry m target (list_files fs target recursive) fs g1 hnb
        hg1f.symm hR
    have heq : rs2 = rs ∧ gA = g1 := by
      rw [hgo1] at hgoA
      injection hgoA with h1
      rw [Prod.mk.injEq] at h1
      exact ⟨h1.1.symm, h1.2.symm⟩
    refine ⟨rs, g1, gB, hgo1, by rw [hg1f], ?_, by rw [hgBf, hg1f]⟩
    unfold organize_by_type
    rw [list_files_congr target recursive hg1f, ← heq.1]
    exact hgoB
  · intro hstat hnb
    obtain ⟨rs, g1, g2, hgo1, -, hg1f, -, hadd, hmono, -⟩ :=
      organize_date_go_dry target (list_files fs target recursive) fs fs hstat hnb rfl
        (fun d _ => Iff.rfl)
    have hR : ∀ d : Dir, d.length = target.length + 2 → (d ∈ fs.dirs ↔ d ∈ g1.dirs) := by
      intro d hlen
      constructor
      · exact hmono d
      · intro hdg
        rcases hadd d hdg with h1 | h2
        · exact h1
        · omega
    obtain ⟨rs2, gA, gB, hgoA, hgoB, hgAf, hgBf, -, -, -⟩ :=
      organize_date_go_dry target (list_files fs target recursive) fs g1 hstat hnb
        hg1f.symm hR
    have heq : rs2 = rs ∧ gA = g1 := by
      rw [hgo1] at hgoA
      injection hgoA with h1
      rw [Prod.mk.injEq] at h1
      exact ⟨h1.1.symm, h1.2.symm⟩
    refine ⟨rs, g1, gB, hgo1, by rw [hg1f], ?_, by rw [hgBf, hg1f]⟩
    unfold organize_by_date
    rw [list_files_congr target recursive hg1f, ← heq.1]
    exact hgoB

/-- The C1 counterexample filesystem: one image, no `Images` directory. -/
def fsC1 : FS := ⟨[mkFile ⟨["t"], ⟨"a", ".jpg"⟩⟩], [["t"]], noMoveFails⟩

/-- C1 counterexample: a dry run moves no file, yet it does mutate the
filesystem — the destination directory `t/Images`, absent before, exists
afterwards, contradicting "no directory is created". -/
theorem C1_counterexample :
    (["t", "Images"] : Dir) ∉ fsC1.dirs ∧
    (["t", "Images"] : Dir) ∈ resultDirs (organize_by_type fsC1 mC2 ["t"] true false) ∧
    resultFiles (organize_by_type fsC1 mC2 ["t"] true false) = fsC1.files := by
  refine ⟨?_, ?_, ?_⟩ <;> decide

/-- The hypothesis of `C1_dry_run` is not vacuous sugar: with a regular
file literally named `Images` occupying the destination-directory path,
`mkdir` raises and even a dry run aborts. -/
def fsC1blocked : FS :=
  ⟨[mkFile ⟨["t"], ⟨"a", ".jpg"⟩⟩, mkFile ⟨["t"], ⟨"Images", ""⟩⟩], [["t"]], noMoveFails⟩

theorem dry_run_blocked_aborts :
    isOkE (organize_by_type fsC1blocked mC2 ["t"] true false) = false := by decide

theorem C1_dry_run_witness :
    isOkE (organize_by_type fsC1 mC2 ["t"] true false) = true ∧
    resultFiles (organize_by_type fsC1 mC2 ["t"] true false) = fsC1.files ∧
    isOkE (organize_by_date fsC1 ["t"] true false) = true ∧
    resultFiles (organize_by_date fsC1 ["t"] true false) = fsC1.files := by
  obtain ⟨h1, h2⟩ := C1_dry_run fsC1 mC2 ["t"] false
  obtain ⟨rs, fsA, fsB, ht1, ht2, -, -⟩ := h1 (by decide)
  obtain ⟨rs2, fsA2, fsB2, hd1, hd2, -, -⟩ := h2 (by decide) (by decide)
  rw [ht1, hd1]
  exact ⟨rfl, ht2, rfl, hd2⟩
